import Mathlib

/-!
# The KLEE constraint store (`klee/Constraints.h`)

A shallow embedding of `klee::ConstraintManager`: the ordered sequence of
path constraints of one execution state together with the public counter
`concolicSize`, and the operations the header defines inline
(constructors, `empty`, `back`, `size`, `pop_back`, `erase`, `operator==`).

* `std::vector< ref<Expr> >` is a `List α`, position `0` being `begin()`.
* `ref<Expr>` is an arbitrary type `α` with decidable equality: the header
  only stores, copies and compares expression references; the expression
  classes themselves live in `klee/Expr.h`.
* `uint32_t concolicSize` is a `Nat`; the header only initialises and copies
  it, so no arithmetic on it can wrap.
* `int num` of `erase` is an `Int`; `erase` does no arithmetic on it besides
  the iterator offset `begin()+num`, and every value of an `int` is an `Int`.
* Operations whose C++ behaviour is undefined outside a precondition
  (`back` on an empty vector, `erase` with an invalid iterator range) return
  `Option`, `none` standing for the undefined case.
* For copies, the element storage of the vectors is made part of the state
  (section "Objects and vector storage"): an object holds the address of the
  storage of its vector, so that two objects can share storage or not.
-/

namespace klee

/-! ## The parts of `std::vector` the header relies on -/

/-- `std::equal(first1, last1, first2)`: walks the first range and compares
it element by element with the range starting at `first2`. -/
def std_equal {α : Type} [DecidableEq α] : List α → List α → Bool
  | [], _ => true
  | _ :: _, [] => false
  | a :: as, b :: bs => decide (a = b) && std_equal as bs

/-- `operator==` of `std::vector`: equal sizes and `std::equal` on the
elements. -/
def vector_eq {α : Type} [DecidableEq α] (a b : List α) : Bool :=
  decide (a.length = b.length) && std_equal a b

/-- `std::vector::erase(first, last)` with iterators given as offsets from
`begin()`: removes the elements at positions `first ≤ i < last` and shifts
the rest left. The range has to be a valid range of the vector. -/
def vector_erase {α : Type} (v : List α) (first last : Int) : Option (List α) :=
  if 0 ≤ first ∧ first ≤ last ∧ last ≤ (v.length : Int) then
    some (v.take first.toNat ++ v.drop last.toNat)
  else
    none

/-- `std::vector::pop_back()`: removes the last element; the vector has to
be non-empty. -/
def vector_pop_back {α : Type} (v : List α) : Option (List α) :=
  if v.isEmpty then none else some v.dropLast

/-! ## `ConstraintManager` -/

/-- The data members of `klee::ConstraintManager`: the private vector
`constraints` and the public counter `concolicSize`. -/
structure ConstraintManager (α : Type) where
  constraints : List α
  concolicSize : Nat
  deriving DecidableEq, Repr

namespace ConstraintManager

variable {α : Type}

/-- `ConstraintManager() : concolicSize(0) {}`. -/
def new : ConstraintManager α :=
  { constraints := [], concolicSize := 0 }

/-- `explicit ConstraintManager(const std::vector< ref<Expr> > &_constraints)`:
"create from constraints with no optimization". -/
def fromVector (_constraints : List α) : ConstraintManager α :=
  { constraints := _constraints, concolicSize := 0 }

/-- `ConstraintManager(const ConstraintManager &cs)`. -/
def copy (cs : ConstraintManager α) : ConstraintManager α :=
  { constraints := cs.constraints, concolicSize := cs.concolicSize }

/-- `bool empty() const`. -/
def empty (cm : ConstraintManager α) : Bool :=
  cm.constraints.isEmpty

/-- `ref<Expr> back() const`: the last constraint, undefined on an empty
store. -/
def back (cm : ConstraintManager α) : Option α :=
  cm.constraints.getLast?

/-- `size_t size() const`. -/
def size (cm : ConstraintManager α) : Nat :=
  cm.constraints.length

/-- `void pop_back()`: `if(!empty()) constraints.pop_back();`. The result is
`none` if the call to the vector's `pop_back` is undefined. -/
def pop_back (cm : ConstraintManager α) : Option (ConstraintManager α) :=
  if !cm.empty then
    match vector_pop_back cm.constraints with
    | some v => some { cm with constraints := v }
    | none => none
  else
    some cm

/-- `iterator erase(int num)`:
`constraints.erase(constraints.begin(), constraints.begin()+num)`.
The iterator returned by the C++ function is `begin()` of the vector after
the call and is not part of the state. -/
def erase (cm : ConstraintManager α) (num : Int) : Option (ConstraintManager α) :=
  match vector_erase cm.constraints 0 (0 + num) with
  | some v => some { cm with constraints := v }
  | none => none

/-- `bool operator==(const ConstraintManager &other) const`:
`constraints == other.constraints`. -/
def op_eq [DecidableEq α] (cm other : ConstraintManager α) : Bool :=
  vector_eq cm.constraints other.constraints

end ConstraintManager

/-! ## Reordering a vector of facts -/

/-- The vector `v` read through a permutation `σ` of its positions: position
`i` of the result holds `v[σ i]`. -/
def reorder {α : Type} (v : List α) (σ : Equiv.Perm (Fin v.length)) : List α :=
  List.ofFn (fun i => v.get (σ i))

/-! ## Expressions, the rewriter and `addConstraint`

`addConstraint`, `simplifyForValidConstraint`, `simplifyExpr`,
`rewriteConstraints` and `addConstraintInternal` are declared in the header
and defined in `Constraints.cpp`; the expression classes are in
`klee/Expr.h`. This section follows the specification's description of
them. -/

/-- Modelled from the spec: the expression nodes of `klee/Expr.h`, which the
spec describes as immutable nodes "typed by a fixed bit-width and a closed
set of operator kinds (constant, symbolic-read, arithmetic, bitwise,
comparison, logical, ...)". A representative of each kind is kept; boolean
nodes have width 1. -/
inductive Expr where
  | Const (value width : Nat)
  | Read (name : String) (width : Nat)
  | Add (l r : Expr)
  | And (l r : Expr)
  | Eq (l r : Expr)
  | Ult (l r : Expr)
  | Ugt (l r : Expr)
  | Not (e : Expr)
  deriving DecidableEq, Repr

namespace Expr

/-- Modelled from the spec: the "trivial-true constant" of `klee/Expr.h`. -/
def ConstTrue : Expr := Const 1 1

/-- Modelled from the spec: the boolean constant false (`ConstFalse`) of
`klee/Expr.h`. -/
def ConstFalse : Expr := Const 0 1

/-- Modelled from the spec: a boolean as a width-1 constant node of
`klee/Expr.h`. -/
def ofBool (b : Bool) : Expr := if b then ConstTrue else ConstFalse

/-- Modelled from the spec: the constant folding of `klee/Expr.h`, "constant
folding of its own immediate subexpressions": a node all of whose children
are constants is replaced by the constant it evaluates to, any other node is
returned as it is. -/
def fold : Expr → Expr
  | Add (Const a w) (Const b _) => Const ((a + b) % 2 ^ w) w
  | And (Const a w) (Const b _) => Const (a &&& b) w
  | Eq (Const a _) (Const b _) => ofBool (decide (a = b))
  | Ult (Const a _) (Const b _) => ofBool (decide (a < b))
  | Ugt (Const a _) (Const b _) => ofBool (decide (b < a))
  | Not (Const a _) => ofBool (decide (a = 0))
  | e => e

/-- Modelled from the spec: the Expression Rewriter (`ExprVisitor` of
`klee/util/ExprVisitor.h`) for the rule "replace occurrences of
sub-expression `a` with sub-expression `b`". Children are rewritten before
their parent; a node whose children are unchanged is not rebuilt, a node
with a changed child is rebuilt and folded. The memo table of the spec only
saves repeated work and is left out. -/
def rewrite (a b : Expr) : Expr → Expr
  | e@(Const _ _) => if e = a then b else e
  | e@(Read _ _) => if e = a then b else e
  | e@(Add l r) =>
    if e = a then b else
      let l2 := rewrite a b l
      let r2 := rewrite a b r
      if l2 = l ∧ r2 = r then e else fold (Add l2 r2)
  | e@(And l r) =>
    if e = a then b else
      let l2 := rewrite a b l
      let r2 := rewrite a b r
      if l2 = l ∧ r2 = r then e else fold (And l2 r2)
  | e@(Eq l r) =>
    if e = a then b else
      let l2 := rewrite a b l
      let r2 := rewrite a b r
      if l2 = l ∧ r2 = r then e else fold (Eq l2 r2)
  | e@(Ult l r) =>
    if e = a then b else
      let l2 := rewrite a b l
      let r2 := rewrite a b r
      if l2 = l ∧ r2 = r then e else fold (Ult l2 r2)
  | e@(Ugt l r) =>
    if e = a then b else
      let l2 := rewrite a b l
      let r2 := rewrite a b r
      if l2 = l ∧ r2 = r then e else fold (Ugt l2 r2)
  | e@(Not x) =>
    if e = a then b else
      let x2 := rewrite a b x
      if x2 = x then e else fold (Not x2)

/-- Modelled from the spec: the rewriter's contract, "produce a rewritten
root and a boolean flag indicating whether anything changed"
(`klee/util/ExprVisitor.h`). -/
def rewriteFlag (a b e : Expr) : Expr × Bool :=
  let e2 := rewrite a b e
  (e2, decide (e2 ≠ e))

/-- Modelled from the spec: the substitution rule derived from a fact's
shape in `Constraints.cpp`: a fact that "is syntactically an equality"
between a sub-expression and a simpler one (for instance "a symbolic variable
equated to a constant") yields the rule replacing that sub-expression by the
simpler side; the constant side, when there is one, is the simpler one. Any
other fact yields no rule. -/
def deriveRule : Expr → Option (Expr × Expr)
  | Eq (Const v w) r => some (r, Const v w)
  | Eq l r => some (l, r)
  | _ => none

end Expr

namespace ConstraintManager

/-- Modelled from the spec: `propagateValidFact(fact)`, which is
`simplifyForValidConstraint` with `rewriteConstraints` of `Constraints.cpp`:
"rewrites every existing stored constraint with the Rewriter; any constraint
whose rewrite yields the trivial-true constant is dropped from the sequence,
others are replaced in place preserving relative order; returns whether any
entry changed". -/
def simplifyForValidConstraint (cm : ConstraintManager Expr) (e : Expr) :
    ConstraintManager Expr × Bool :=
  match Expr.deriveRule e with
  | none => (cm, false)
  | some (a, b) =>
    let rewritten := cm.constraints.map (Expr.rewriteFlag a b)
    let kept := (rewritten.map Prod.fst).filter (fun c => decide (c ≠ Expr.ConstTrue))
    ({ cm with constraints := kept }, rewritten.any Prod.snd)

/-- Modelled from the spec: `simplify(expr) const`, which is `simplifyExpr`
of `Constraints.cpp`: "applies the store's currently known substitution
knowledge to `expr` without mutating the store", the knowledge being the
rules derived from the stored facts, applied in the order of the sequence. -/
def simplifyExpr (cm : ConstraintManager Expr) (e : Expr) : Expr :=
  cm.constraints.foldl
    (fun acc c =>
      match Expr.deriveRule c with
      | some (a, b) => Expr.rewrite a b acc
      | none => acc)
    e

/-- Modelled from the spec: `addConstraint(fact)` of `Constraints.cpp`. The
fact is first reduced with what the store knows (the spec's scenario of
`Ult(Read("x",32), Const(10,32))` added to a store holding `x == 5`) and
folded; a fact reduced to trivial-true is not appended. Otherwise, if it
yields a substitution rule, the rule is propagated into the existing entries
and entries folding to trivial-true are removed; then the fact is appended.
The boolean constant false is appended like any other fact. The spec gives
`addConstraint` no effect on `concolicSize`. -/
def addConstraint (cm : ConstraintManager Expr) (e : Expr) : ConstraintManager Expr :=
  let e1 := Expr.fold (cm.simplifyExpr e)
  if e1 = Expr.ConstTrue then cm
  else
    let cm1 := (cm.simplifyForValidConstraint e1).1
    { cm1 with constraints := cm1.constraints ++ [e1] }

end ConstraintManager

/-! ## Objects and vector storage

A `std::vector` owns element storage on the heap, and two vectors may only
be told apart, or found to share their elements, once that storage is part
of the state. Here a `ConstraintManager` object holds the address of the
storage of its member `constraints` and, directly, its member
`concolicSize`. -/

/-- The element storage of the vectors alive in a program: the sequence held
at each address. -/
abbrev Heap (α : Type) := List (List α)

/-- A `ConstraintManager` object: `constraints` is the address of the
element storage of the member vector, `concolicSize` the counter. -/
structure Object where
  constraints : Nat
  concolicSize : Nat
  deriving DecidableEq, Repr

/-- The store an object stands for, read from the storage of its vector. -/
def Object.load {α : Type} (h : Heap α) (this : Object) : Option (ConstraintManager α) :=
  match h[this.constraints]? with
  | some v => some { constraints := v, concolicSize := this.concolicSize }
  | none => none

/-- The members of `this` after a member function has computed `cm` for
them: the sequence is written to the storage of the vector of `this`, the
counter to the object. -/
def Object.store {α : Type} (h : Heap α) (this : Object) (cm : ConstraintManager α) :
    Heap α × Object :=
  (h.set this.constraints cm.constraints, { this with concolicSize := cm.concolicSize })

/-- The copy constructor of `std::vector`: new storage is allocated, at a
fresh address, and receives a copy of the elements of the source. -/
def vector_copy {α : Type} (h : Heap α) (src : Nat) : Option (Heap α × Nat) :=
  match h[src]? with
  | some v => some (h ++ [v], h.length)
  | none => none

/-- `ConstraintManager(const ConstraintManager &cs) :
constraints(cs.constraints), concolicSize(cs.concolicSize) {}` on objects:
the member vector is copy-constructed from the vector of `cs`, the counter is
copied. -/
def Object.copyConstruct {α : Type} (h : Heap α) (cs : Object) : Option (Heap α × Object) :=
  match vector_copy h cs.constraints with
  | some (h1, p) => some (h1, { constraints := p, concolicSize := cs.concolicSize })
  | none => none

/-- The mutating member functions of `ConstraintManager`. -/
inductive Mutation where
  | addConstraint (e : Expr)
  | pop_back
  | erase (num : Int)

/-- Whether the call has defined behaviour on the store: `erase(num)` needs
`0 <= num <= size()`. -/
def Mutation.defined (m : Mutation) (cm : ConstraintManager Expr) : Prop :=
  match m with
  | .erase num => 0 ≤ num ∧ num ≤ (cm.size : Int)
  | _ => True

instance (m : Mutation) (cm : ConstraintManager Expr) : Decidable (m.defined cm) := by
  cases m <;> unfold Mutation.defined <;> infer_instance

/-- What a mutating call computes from the members of its receiver;
`addConstraint` is the one modelled from the spec above. -/
def Mutation.apply (m : Mutation) (cm : ConstraintManager Expr) :
    Option (ConstraintManager Expr) :=
  match m with
  | .addConstraint e => some (cm.addConstraint e)
  | .pop_back => cm.pop_back
  | .erase num => cm.erase num

/-- A mutating member function called on the object `this`: it works on the
members of `this`, that is on the vector whose storage is at
`this.constraints` and on the counter of `this`. -/
def Object.mutate (h : Heap Expr) (this : Object) (m : Mutation) :
    Option (Heap Expr × Object) :=
  match this.load h with
  | some cm =>
    match m.apply cm with
    | some cm2 => some (Object.store h this cm2)
    | none => none
  | none => none

/-! ## Facts about the vector primitives -/

theorem std_equal_of_length_eq {α : Type} [DecidableEq α] :
    ∀ (a b : List α), a.length = b.length → (std_equal a b = true ↔ a = b)
  | [], [], _ => by simp [std_equal]
  | [], _ :: _, h => by simp at h
  | _ :: _, [], h => by simp at h
  | x :: xs, y :: ys, h => by
      have hl : xs.length = ys.length := by simpa using h
      simp [std_equal, std_equal_of_length_eq xs ys hl]

theorem vector_eq_iff {α : Type} [DecidableEq α] (a b : List α) :
    vector_eq a b = true ↔ a = b := by
  unfold vector_eq
  constructor
  · intro h
    simp only [Bool.and_eq_true, decide_eq_true_eq] at h
    exact (std_equal_of_length_eq a b h.1).1 h.2
  · rintro rfl
    simp [(std_equal_of_length_eq a a rfl).2 rfl]

theorem vector_erase_front {α : Type} (v : List α) (num : Int)
    (h0 : 0 ≤ num) (h1 : num ≤ (v.length : Int)) :
    vector_erase v 0 (0 + num) = some (v.drop num.toNat) := by
  unfold vector_erase
  have : (0 : Int) ≤ 0 ∧ (0 : Int) ≤ 0 + num ∧ 0 + num ≤ (v.length : Int) := by omega
  rw [if_pos this]
  simp

theorem erase_eq_some {α : Type} (cm : ConstraintManager α) (num : Int)
    (h0 : 0 ≤ num) (h1 : num ≤ (cm.size : Int)) :
    cm.erase num = some { cm with constraints := cm.constraints.drop num.toNat } := by
  unfold ConstraintManager.erase
  rw [vector_erase_front cm.constraints num h0 h1]

theorem pop_back_eq_some {α : Type} (cm : ConstraintManager α) :
    cm.pop_back = some { cm with constraints := cm.constraints.dropLast } := by
  unfold ConstraintManager.pop_back ConstraintManager.empty vector_pop_back
  cases h : cm.constraints with
  | nil => cases cm; simp_all
  | cons x xs => simp

theorem op_eq_iff_constraints_eq {α : Type} [DecidableEq α] (A B : ConstraintManager α) :
    A.op_eq B = true ↔ A.constraints = B.constraints := by
  unfold ConstraintManager.op_eq
  exact vector_eq_iff _ _

/-! ## Removing entries -/

section Removal

variable {α : Type}

/-- C1: for a store with sequence `s` and an integer `n` with
`0 <= n <= size()`, `erase(n)` is defined and leaves exactly `s` without its
first `n` entries: the new size is the old size minus `n`, the entry at
position `i` is the old entry at position `n + i`; `erase(0)` leaves the
store as it is and `erase(size())` leaves it empty. -/
theorem erase_removes_first_n (cm : ConstraintManager α) (n : Int)
    (h0 : 0 ≤ n) (h1 : n ≤ (cm.size : Int)) :
    (∃ cm2, cm.erase n = some cm2 ∧
      cm2.constraints = cm.constraints.drop n.toNat ∧
      (cm2.size : Int) = (cm.size : Int) - n ∧
      ∀ i : Nat, cm2.constraints[i]? = cm.constraints[n.toNat + i]?) ∧
    cm.erase 0 = some cm ∧
    ∃ cm3, cm.erase (cm.size : Int) = some cm3 ∧ cm3.constraints = [] ∧
      cm3.empty = true ∧ cm3.size = 0 := by
  refine ⟨⟨_, erase_eq_some cm n h0 h1, rfl, ?_, ?_⟩, ?_, ⟨_, erase_eq_some cm _ ?_ le_rfl, ?_⟩⟩
  · have hn : n.toNat ≤ cm.constraints.length := by
      have := h1
      unfold ConstraintManager.size at this
      omega
    simp only [ConstraintManager.size, List.length_drop]
    omega
  · intro i
    simp [List.getElem?_drop]
  · rw [erase_eq_some cm 0 le_rfl (by exact_mod_cast Nat.zero_le _)]
    simp
  · exact_mod_cast Nat.zero_le _
  · simp [ConstraintManager.size, ConstraintManager.empty]

/-- Witness of C1: the store `[10, 20, 30]` and `n = 2`. -/
theorem erase_removes_first_n_witness :
    (∃ cm2, (ConstraintManager.fromVector [10, 20, 30]).erase 2 = some cm2 ∧
      cm2.constraints = [10, 20, 30].drop (2 : Int).toNat ∧
      (cm2.size : Int) = ((ConstraintManager.fromVector [10, 20, 30]).size : Int) - 2 ∧
      ∀ i : Nat, cm2.constraints[i]? =
        (ConstraintManager.fromVector [10, 20, 30]).constraints[(2 : Int).toNat + i]?) ∧
    (ConstraintManager.fromVector [10, 20, 30]).erase 0 =
      some (ConstraintManager.fromVector [10, 20, 30]) ∧
    ∃ cm3, (ConstraintManager.fromVector [10, 20, 30]).erase
        ((ConstraintManager.fromVector [10, 20, 30]).size : Int) = some cm3 ∧
      cm3.constraints = [] ∧ cm3.empty = true ∧ cm3.size = 0 :=
  erase_removes_first_n (ConstraintManager.fromVector [10, 20, 30]) 2 (by decide) (by decide)

/-- C2: `pop_back` never fails. On an empty store it returns the store
unchanged, hence empty; on a non-empty store it removes exactly the last
entry: the size decreases by one and every remaining position keeps its
entry. -/
theorem pop_back_never_fails (cm : ConstraintManager α) :
    ∃ cm2, cm.pop_back = some cm2 ∧
      (cm.empty = true → cm2 = cm ∧ cm2.empty = true) ∧
      (cm.empty = false →
        cm2.size + 1 = cm.size ∧
        (∀ i : Nat, i < cm2.size → cm2.constraints[i]? = cm.constraints[i]?) ∧
        ∃ last, cm.back = some last ∧ cm.constraints = cm2.constraints ++ [last]) := by
  refine ⟨_, pop_back_eq_some cm, ?_, ?_⟩
  · intro he
    have hnil : cm.constraints = [] := by
      simpa [ConstraintManager.empty] using he
    cases cm
    simp_all [ConstraintManager.empty]
  · intro he
    have hne : cm.constraints ≠ [] := by
      simpa [ConstraintManager.empty] using he
    have hlen : 0 < cm.constraints.length := List.length_pos.2 hne
    refine ⟨?_, ?_, cm.constraints.getLast hne, ?_, ?_⟩
    · simp only [ConstraintManager.size, List.length_dropLast]
      omega
    · intro i hi
      simp only [ConstraintManager.size, List.length_dropLast] at hi
      rw [List.dropLast_eq_take]
      rw [List.getElem?_take_of_lt (by omega)]
    · simp [ConstraintManager.back, List.getLast?_eq_getLast _ hne]
    · exact (List.dropLast_append_getLast hne).symm

/-- Witness of C2: the empty store and the store `[10, 20, 30]`. -/
theorem pop_back_never_fails_witness :
    (∃ cm2, (ConstraintManager.new : ConstraintManager Nat).pop_back = some cm2 ∧
      cm2 = ConstraintManager.new ∧ cm2.empty = true) ∧
    (∃ cm2, (ConstraintManager.fromVector [10, 20, 30]).pop_back = some cm2 ∧
      cm2.size + 1 = 3 ∧ cm2.constraints = [10, 20]) := by
  obtain ⟨a, ha, ha1, _⟩ := pop_back_never_fails (ConstraintManager.new : ConstraintManager Nat)
  obtain ⟨b, hb, _, hb2⟩ := pop_back_never_fails (ConstraintManager.fromVector [10, 20, 30])
  refine ⟨⟨a, ha, ha1 rfl⟩, ⟨b, hb, (hb2 rfl).1, ?_⟩⟩
  rw [pop_back_eq_some] at hb
  cases hb
  rfl

/-- C9: `pop_back()` and `erase(n)` with `0 <= n <= size()` leave
`concolicSize` as it was, whatever number of entries they remove. -/
theorem removal_keeps_concolicSize (cm : ConstraintManager α) (n : Int)
    (h0 : 0 ≤ n) (h1 : n ≤ (cm.size : Int)) :
    (∃ cm2, cm.pop_back = some cm2 ∧ cm2.concolicSize = cm.concolicSize) ∧
    (∃ cm3, cm.erase n = some cm3 ∧ cm3.concolicSize = cm.concolicSize) :=
  ⟨⟨_, pop_back_eq_some cm, rfl⟩, ⟨_, erase_eq_some cm n h0 h1, rfl⟩⟩

/-- Witness of C9: the store `[10, 20, 30]` with `concolicSize == 2`, and
`n = 3`. -/
theorem removal_keeps_concolicSize_witness :
    (∃ cm2, (ConstraintManager.mk [10, 20, 30] 2).pop_back = some cm2 ∧
      cm2.concolicSize = 2) ∧
    (∃ cm3, (ConstraintManager.mk [10, 20, 30] 2).erase 3 = some cm3 ∧
      cm3.concolicSize = 2) :=
  removal_keeps_concolicSize (ConstraintManager.mk [10, 20, 30] 2) 3 (by decide) (by decide)

end Removal

/-! ## Construction and comparison -/

section Comparison

variable {α : Type}

theorem reorder_getElem? (v : List α) (σ : Equiv.Perm (Fin v.length)) (i : Fin v.length) :
    (reorder v σ)[i.val]? = some (v.get (σ i)) := by
  unfold reorder
  have hi : i.val < (List.ofFn (fun j => v.get (σ j))).length := by
    rw [List.length_ofFn]
    exact i.isLt
  rw [List.getElem?_eq_getElem hi, List.getElem_ofFn]

theorem reorder_ne_of_nodup (v : List α) (σ : Equiv.Perm (Fin v.length))
    (hv : v.Nodup) (hσ : σ ≠ 1) : reorder v σ ≠ v := by
  intro h
  apply hσ
  ext i
  have h1 := reorder_getElem? v σ i
  rw [h, List.getElem?_eq_getElem i.isLt] at h1
  have h2 : v.get i = v.get (σ i) := by
    simpa using h1
  have h3 : i = σ i := (List.Nodup.get_inj_iff hv).1 h2
  simp [← h3]

/-- C8: the store built from a vector `v` holds exactly the entries of `v`
in order (same size, same entry at every position) and has `concolicSize`
0; the default-constructed store is empty, of size 0, with `concolicSize`
0. -/
theorem constructors_keep_the_vector (v : List α) :
    (ConstraintManager.fromVector v).constraints = v ∧
    (ConstraintManager.fromVector v).size = v.length ∧
    (∀ i : Nat, (ConstraintManager.fromVector v).constraints[i]? = v[i]?) ∧
    (ConstraintManager.fromVector v).concolicSize = 0 ∧
    (ConstraintManager.new : ConstraintManager α).empty = true ∧
    (ConstraintManager.new : ConstraintManager α).size = 0 ∧
    (ConstraintManager.new : ConstraintManager α).concolicSize = 0 :=
  ⟨rfl, rfl, fun _ => rfl, rfl, rfl, rfl, rfl⟩

variable [DecidableEq α]

/-- C3: `A == B` holds if and only if the two sequences have the same
length and hold the same expression reference at every position. -/
theorem op_eq_iff_same_entries (A B : ConstraintManager α) :
    A.op_eq B = true ↔
      (A.size = B.size ∧
        ∀ i : Nat, i < A.size → A.constraints[i]? = B.constraints[i]?) := by
  rw [op_eq_iff_constraints_eq]
  constructor
  · intro h
    simp [ConstraintManager.size, h]
  · rintro ⟨hs, hi⟩
    apply List.ext_getElem?
    intro i
    by_cases hlt : i < A.size
    · exact hi i hlt
    · have hA : A.constraints.length ≤ i := by
        simpa [ConstraintManager.size] using hlt
      have hB : B.constraints.length ≤ i := by
        rw [ConstraintManager.size, ConstraintManager.size] at hs
        omega
      rw [List.getElem?_eq_none hA, List.getElem?_eq_none hB]

/-- Witness of C3: two stores holding `[10, 20]`. -/
theorem op_eq_iff_same_entries_witness :
    (ConstraintManager.fromVector [10, 20]).op_eq (ConstraintManager.mk [10, 20] 1) = true :=
  (op_eq_iff_same_entries (ConstraintManager.fromVector [10, 20])
    (ConstraintManager.mk [10, 20] 1)).2 ⟨rfl, fun _ _ => rfl⟩

/-- C10: `operator==` looks at the sequences only: two stores with the
same sequence compare equal whatever their `concolicSize`, and there are
two stores that compare equal and differ in `concolicSize`. -/
theorem op_eq_ignores_concolicSize :
    (∀ A B : ConstraintManager α, A.constraints = B.constraints → A.op_eq B = true) ∧
    (∀ (s : List α) (c1 c2 : Nat),
      (ConstraintManager.mk s c1).op_eq (ConstraintManager.mk s c2) = true) ∧
    ∃ A B : ConstraintManager α, A.op_eq B = true ∧ A.concolicSize ≠ B.concolicSize := by
  refine ⟨fun A B h => (op_eq_iff_constraints_eq A B).2 h,
    fun s c1 c2 => (op_eq_iff_constraints_eq _ _).2 rfl,
    ⟨ConstraintManager.mk [] 0, ConstraintManager.mk [] 1,
      (op_eq_iff_constraints_eq _ _).2 rfl, by simp⟩⟩

/-- Witness of C10: the sequence `[10, 20]` with `concolicSize` 0 and 2. -/
theorem op_eq_ignores_concolicSize_witness :
    (ConstraintManager.mk [10, 20] 0).op_eq (ConstraintManager.mk [10, 20] 2) = true :=
  (@op_eq_ignores_concolicSize Nat _).1 (ConstraintManager.mk [10, 20] 0)
    (ConstraintManager.mk [10, 20] 2) rfl

/-- Counterexample to C4 as stated: the facts `[7, 7]` reordered by the
swap of their two positions, which is not the identity permutation, give a
store that compares equal to the store built in the original order. -/
theorem reordered_duplicates_compare_equal :
    (Equiv.swap (⟨0, by decide⟩ : Fin ([7, 7] : List Nat).length) ⟨1, by decide⟩) ≠ 1 ∧
    (ConstraintManager.fromVector
      (reorder [7, 7]
        (Equiv.swap (⟨0, by decide⟩ : Fin ([7, 7] : List Nat).length) ⟨1, by decide⟩))).op_eq
      (ConstraintManager.fromVector [7, 7]) = true := by
  decide

/-- C4, amended: two stores built from the same sequence of facts in the
same order compare equal; a store built from a reordering of the facts
compares unequal to the one built in the original order exactly when the
reordered sequence differs from the original one, which is the case for
every non-identity permutation of the positions when the facts are pairwise
distinct. -/
theorem op_eq_same_order_and_reordered (v : List α) (σ : Equiv.Perm (Fin v.length)) :
    (ConstraintManager.fromVector v).op_eq (ConstraintManager.fromVector v) = true ∧
    ((ConstraintManager.fromVector (reorder v σ)).op_eq (ConstraintManager.fromVector v) = false
      ↔ reorder v σ ≠ v) ∧
    (v.Nodup → σ ≠ 1 →
      (ConstraintManager.fromVector (reorder v σ)).op_eq
        (ConstraintManager.fromVector v) = false) := by
  have key : (ConstraintManager.fromVector (reorder v σ)).op_eq
      (ConstraintManager.fromVector v) = false ↔ reorder v σ ≠ v := by
    rw [← Bool.not_eq_true, op_eq_iff_constraints_eq]
    rfl
  exact ⟨(op_eq_iff_constraints_eq _ _).2 rfl, key,
    fun hv hσ => key.2 (reorder_ne_of_nodup v σ hv hσ)⟩

/-- Witness of C4, amended: the distinct facts `[7, 8]` and the swap of
their two positions. -/
theorem op_eq_same_order_and_reordered_witness :
    (ConstraintManager.fromVector
      (reorder [7, 8]
        (Equiv.swap (⟨0, by decide⟩ : Fin ([7, 8] : List Nat).length) ⟨1, by decide⟩))).op_eq
      (ConstraintManager.fromVector [7, 8]) = false :=
  (op_eq_same_order_and_reordered [7, 8]
    (Equiv.swap (⟨0, by decide⟩ : Fin ([7, 8] : List Nat).length) ⟨1, by decide⟩)).2.2
    (by decide) (by decide)

end Comparison

/-! ## The counter `concolicSize` -/

section Counter

variable {α : Type}

/-- Counterexample to C6 as stated: the store `[10]` with `concolicSize == 1`
satisfies `concolicSize <= size()`, and neither the store after `pop_back()`
nor the store after `erase(1)` does. -/
theorem removal_breaks_concolicSize_le_size :
    (ConstraintManager.mk [10] 1).concolicSize ≤ (ConstraintManager.mk [10] 1).size ∧
    (0 : Int) ≤ 1 ∧ (1 : Int) ≤ ((ConstraintManager.mk [10] 1).size : Int) ∧
    (∃ cm2, (ConstraintManager.mk [10] 1).pop_back = some cm2 ∧
      ¬ cm2.concolicSize ≤ cm2.size) ∧
    (∃ cm3, (ConstraintManager.mk [10] 1).erase 1 = some cm3 ∧
      ¬ cm3.concolicSize ≤ cm3.size) := by
  refine ⟨by decide, by decide, by decide, ⟨_, pop_back_eq_some _, by decide⟩,
    ⟨_, erase_eq_some _ 1 (by decide) (by decide), by decide⟩⟩

/-- C6, amended: `concolicSize <= size()` holds for every freshly
constructed store (default, from a vector, by copy of a store that satisfies
it). `pop_back()` and `erase(n)` with `0 <= n <= size()` keep
`concolicSize` and shrink the sequence, so the store after them satisfies
`concolicSize <= size()` exactly when `concolicSize` is at most the old size
minus the number of entries removed; this is so whenever `concolicSize` is
0. -/
theorem concolicSize_le_size_after (cm : ConstraintManager α) (v : List α) (n : Int)
    (h0 : 0 ≤ n) (h1 : n ≤ (cm.size : Int)) :
    (ConstraintManager.new : ConstraintManager α).concolicSize
      ≤ (ConstraintManager.new : ConstraintManager α).size ∧
    (ConstraintManager.fromVector v).concolicSize ≤ (ConstraintManager.fromVector v).size ∧
    (cm.concolicSize ≤ cm.size → cm.copy.concolicSize ≤ cm.copy.size) ∧
    (∃ cm2, cm.pop_back = some cm2 ∧
      (cm2.concolicSize ≤ cm2.size ↔
        cm.concolicSize ≤ cm.size - (if cm.empty then 0 else 1)) ∧
      (cm.concolicSize = 0 → cm2.concolicSize ≤ cm2.size)) ∧
    (∃ cm3, cm.erase n = some cm3 ∧
      (cm3.concolicSize ≤ cm3.size ↔ (cm.concolicSize : Int) ≤ (cm.size : Int) - n) ∧
      (cm.concolicSize = 0 → cm3.concolicSize ≤ cm3.size)) := by
  refine ⟨Nat.le_refl _, Nat.zero_le _, fun h => h,
    ⟨_, pop_back_eq_some cm, ?_, ?_⟩, ⟨_, erase_eq_some cm n h0 h1, ?_, ?_⟩⟩
  · cases hc : cm.constraints with
    | nil => simp [ConstraintManager.size, ConstraintManager.empty, hc]
    | cons x xs => simp [ConstraintManager.size, ConstraintManager.empty, hc]
  · intro hz
    simp [hz]
  · have hn : n.toNat ≤ cm.constraints.length := by
      have := h1
      unfold ConstraintManager.size at this
      omega
    simp only [ConstraintManager.size, List.length_drop]
    omega
  · intro hz
    simp [hz]

/-- Witness of C6, amended: the store `[10, 20, 30]` with
`concolicSize == 0`, the vector `[10]` and `n = 2`. -/
theorem concolicSize_le_size_after_witness :
    (∃ cm2, (ConstraintManager.mk [10, 20, 30] 0).pop_back = some cm2 ∧
      cm2.concolicSize ≤ cm2.size) ∧
    (∃ cm3, (ConstraintManager.mk [10, 20, 30] 0).erase 2 = some cm3 ∧
      cm3.concolicSize ≤ cm3.size) := by
  obtain ⟨_, _, _, ⟨a, ha, _, ha2⟩, ⟨b, hb, _, hb2⟩⟩ :=
    concolicSize_le_size_after (ConstraintManager.mk [10, 20, 30] 0) [10] 2
      (by decide) (by decide)
  exact ⟨⟨a, ha, ha2 rfl⟩, ⟨b, hb, hb2 rfl⟩⟩

end Counter

/-! ## Copies -/

theorem erase_eq_none {α : Type} (cm : ConstraintManager α) (num : Int)
    (hn : ¬ (0 ≤ num ∧ num ≤ (cm.size : Int))) : cm.erase num = none := by
  unfold ConstraintManager.erase vector_erase
  have : ¬ ((0 : Int) ≤ 0 ∧ (0 : Int) ≤ 0 + num ∧ 0 + num ≤ (cm.constraints.length : Int)) := by
    unfold ConstraintManager.size at hn
    omega
  rw [if_neg this]

theorem apply_isSome_iff_defined (m : Mutation) (cm : ConstraintManager Expr) :
    (m.apply cm).isSome = true ↔ m.defined cm := by
  cases m with
  | addConstraint e => simp [Mutation.apply, Mutation.defined]
  | pop_back => simp [Mutation.apply, Mutation.defined, pop_back_eq_some]
  | erase num =>
    by_cases hd : 0 ≤ num ∧ num ≤ (cm.size : Int)
    · simp [Mutation.apply, Mutation.defined, erase_eq_some cm num hd.1 hd.2, hd]
    · simp only [Mutation.apply, Mutation.defined, erase_eq_none cm num hd]
      simp [hd]

theorem load_eq_some {α : Type} (h : Heap α) (this : Object) (cm : ConstraintManager α)
    (hl : this.load h = some cm) :
    h[this.constraints]? = some cm.constraints ∧ cm.concolicSize = this.concolicSize := by
  unfold Object.load at hl
  cases hv : h[this.constraints]? with
  | none => simp [hv] at hl
  | some v =>
    simp only [hv, Option.some.injEq] at hl
    subst hl
    exact ⟨rfl, rfl⟩

theorem load_lt_length {α : Type} (h : Heap α) (this : Object) (cm : ConstraintManager α)
    (hl : this.load h = some cm) : this.constraints < h.length := by
  by_contra hge
  have := (load_eq_some h this cm hl).1
  rw [List.getElem?_eq_none (Nat.le_of_not_lt hge)] at this
  cases this

/-- An object whose vector used the storage of another one would not be
independent of it: with `B` at the storage of `A`, which holds `[x > 0]`,
`B.pop_back()` leaves `A` empty. -/
theorem shared_storage_is_not_independent :
    ∃ h2 B2,
      Object.mutate [[Expr.Ugt (Expr.Read "x" 32) (Expr.Const 0 32)]]
        (Object.mk 0 0) Mutation.pop_back = some (h2, B2) ∧
      Object.load h2 (Object.mk 0 0) = some (ConstraintManager.mk [] 0) :=
  ⟨_, _, rfl, rfl⟩

/-- C5: let `A` be a store object and `B` the object copy-constructed from
it. `B` holds the copy of `A`: it compares equal to `A`, with the same
sequence and the same `concolicSize`, in storage of its own. A mutating call
on `B` (`addConstraint(f)` for any `f`, `pop_back()`, `erase(n)`) has a
result exactly when its behaviour is defined (always, but for `erase(n)`
outside `0 <= n <= B.size()`), and after it `B` holds what the call computes
while `A.size()` and `A.back()` are what they were. -/
theorem copy_is_independent (h : Heap Expr) (A : Object) (a : ConstraintManager Expr)
    (hA : A.load h = some a) :
    ∃ h1 B, A.copyConstruct h = some (h1, B) ∧
      A.load h1 = some a ∧ B.load h1 = some a.copy ∧
      B.constraints ≠ A.constraints ∧
      a.copy.op_eq a = true ∧ a.copy.constraints = a.constraints ∧
      a.copy.concolicSize = a.concolicSize ∧
      ∀ m : Mutation,
        ((B.mutate h1 m).isSome = true ↔ m.defined a.copy) ∧
        ∀ h2 B2, B.mutate h1 m = some (h2, B2) →
          B2.load h2 = m.apply a.copy ∧
          ∃ a2, A.load h2 = some a2 ∧ a2.size = a.size ∧ a2.back = a.back := by
  obtain ⟨hv, hc⟩ := load_eq_some h A a hA
  have hlt : A.constraints < h.length := load_lt_length h A a hA
  have hA1 : A.load (h ++ [a.constraints]) = some a := by
    unfold Object.load
    rw [List.getElem?_append_left hlt, hv, ← hc]
  have hB1 : Object.load (h ++ [a.constraints])
      (Object.mk h.length A.concolicSize) = some a.copy := by
    unfold Object.load
    simp [ConstraintManager.copy, hc]
  refine ⟨h ++ [a.constraints], Object.mk h.length A.concolicSize, ?_, hA1, hB1,
    Nat.ne_of_gt hlt, (op_eq_iff_constraints_eq _ _).2 rfl, rfl, rfl, ?_⟩
  · simp [Object.copyConstruct, vector_copy, hv]
  · intro m
    constructor
    · rw [← apply_isSome_iff_defined]
      unfold Object.mutate
      rw [hB1]
      cases hap : m.apply a.copy <;> simp [hap]
    · intro h2 B2 hm
      unfold Object.mutate at hm
      rw [hB1] at hm
      cases hap : m.apply a.copy with
      | none => simp [hap] at hm
      | some cm2 =>
        simp only [hap, Object.store, Option.some.injEq, Prod.mk.injEq] at hm
        obtain ⟨rfl, rfl⟩ := hm
        refine ⟨?_, a, ?_, rfl, rfl⟩
        · unfold Object.load
          simp
        · unfold Object.load
          rw [List.getElem?_set_ne (Nat.ne_of_gt hlt), List.getElem?_append_left hlt, hv, ← hc]

/-- Witness of C5: the store `A` holding `[x > 0]`, alone in memory, and its
copy. -/
theorem copy_is_independent_witness :
    ∃ h1 B,
      Object.copyConstruct [[Expr.Ugt (Expr.Read "x" 32) (Expr.Const 0 32)]] (Object.mk 0 0)
        = some (h1, B) ∧
      B.load h1 = some (ConstraintManager.mk
        [Expr.Ugt (Expr.Read "x" 32) (Expr.Const 0 32)] 0) ∧
      ∀ (m : Mutation) h2 B2, B.mutate h1 m = some (h2, B2) →
        ∃ a2, Object.load h2 (Object.mk 0 0) = some a2 ∧ a2.size = 1 ∧
          a2.back = some (Expr.Ugt (Expr.Read "x" 32) (Expr.Const 0 32)) := by
  obtain ⟨h1, B, hc, _, hB, _, _, _, _, hm⟩ :=
    copy_is_independent [[Expr.Ugt (Expr.Read "x" 32) (Expr.Const 0 32)]] (Object.mk 0 0)
      (ConstraintManager.mk [Expr.Ugt (Expr.Read "x" 32) (Expr.Const 0 32)] 0) rfl
  exact ⟨h1, B, hc, hB, fun m h2 B2 hmut => ((hm m).2 h2 B2 hmut).2⟩

/-! ## Equality substitution -/

/-- C7: for a store whose sequence is exactly `[x > 0]`, `x` a 32-bit
symbolic variable, `addConstraint(x == 5)` leaves the sequence exactly
`[x == 5]`: the fact yields the rule `x -> 5`, the existing entry is
rewritten by it and folds to the trivial-true constant, so it is dropped,
and the new fact is appended. -/
theorem addConstraint_equality_substitution :
    Expr.deriveRule (Expr.Eq (Expr.Read "x" 32) (Expr.Const 5 32))
      = some (Expr.Read "x" 32, Expr.Const 5 32) ∧
    Expr.rewrite (Expr.Read "x" 32) (Expr.Const 5 32)
        (Expr.Ugt (Expr.Read "x" 32) (Expr.Const 0 32)) = Expr.ConstTrue ∧
    ∀ c : Nat,
      ((ConstraintManager.mk [Expr.Ugt (Expr.Read "x" 32) (Expr.Const 0 32)] c).addConstraint
        (Expr.Eq (Expr.Read "x" 32) (Expr.Const 5 32))).constraints
      = [Expr.Eq (Expr.Read "x" 32) (Expr.Const 5 32)] :=
  ⟨rfl, by decide, fun _ => by rfl⟩

end klee
